import Mathlib

/-!
Verification of the data-fetch-and-aggregation pipeline of the
changelog-generator repository.

The definitions below are a shallow embedding of the Python source:

* `github_api_call`           - src/utils/github_data_fetch.py, `github_api_call`
* `fetch_prs_merged_between_dates_optimized`
                              - same file, pagination loop with date filtering
* `fetch_commits_from_pr`     - same file, single-PR commit fetch
* `fetch_pr_commits_with_retry`
                              - same file, `_fetch_pr_commits_with_retry`
* `fetch_single_pr_commits_optimized`
                              - same file, `_fetch_single_pr_commits_optimized`
* `fetch_commits_from_prs_optimized`
                              - same file, the concurrent aggregator
* `transform_commits_to_records`
                              - same file, `_transform_commits_to_records`
* `extract_messages_from_commits_optimized`
                              - src/utils/summarisation.py
* `drop_duplicates_by_number` - src/streamlit_app.py, `prs.drop_duplicates(subset=["number"], keep="first")`

Network traffic is modelled by oracles (`NetOutcome`); the response
sanitizer and the commit-message sanitizer are external collaborators of the
core (per the design) and are passed in as opaque function parameters.
Backoff waits are rational numbers (the Python floats involved are exact
binary fractions: base_delay times powers of two).
-/

/-- Typed API failure raised by the client (`GitHubAPIError(message, status_code)`). -/
structure GitHubAPIError where
  message : String
  status : Option Nat
  deriving DecidableEq, Repr

/-- Outcome of one HTTP request: a response, a timeout, or a connection failure. -/
inductive NetOutcome (α : Type) where
  | resp (status : Nat) (remaining : Option Nat) (body : α)
  | timeout
  | connError

/-- The response object handed back by a successful client call. -/
structure HttpResponse (α : Type) where
  status : Nat
  remaining : Option Nat
  body : α

/-- The error raised on HTTP 403 with the remaining-quota header equal to 0. -/
def rateLimitError : GitHubAPIError := ⟨"Rate limit exceeded", some 403⟩

/-- Embedding of `github_api_call`: status/ header inspection in source order.
The `X-RateLimit-Remaining` header defaults to "0" when absent
(`response.headers.get('X-RateLimit-Remaining', '0')`). -/
def github_api_call {α : Type} (net : NetOutcome α) :
    Except GitHubAPIError (HttpResponse α) :=
  match net with
  | .timeout => .error ⟨"GitHub API request timeout", none⟩
  | .connError => .error ⟨"Failed to connect to GitHub API", none⟩
  | .resp status remaining body =>
    if status == 403 && remaining.getD 0 == 0 then
      .error rateLimitError
    else if status == 404 then
      .error ⟨"Repository not found or not accessible", some 404⟩
    else if status == 401 then
      .error ⟨"GitHub token is invalid or expired", some 401⟩
    else if status ≥ 400 then
      .error ⟨"GitHub API error", some status⟩
    else
      .ok ⟨status, remaining, body⟩

/-- Whether a network outcome is a 403 response with exhausted quota. -/
def isRateLimitResponse {α : Type} : NetOutcome α → Bool
  | .resp status remaining _ => status == 403 && remaining.getD 0 == 0
  | _ => false

/-- One entry of a `/pulls/{n}/commits` JSON array.  Entries that are not
dicts are skipped by the transformation, so they are modelled explicitly. -/
inductive CommitEntry where
  | dict (sha : Option String) (message : Option String)
  | nonDict
  deriving DecidableEq, Repr

/-- The `commit.message` text of an entry, with the source's `.get` defaults. -/
def CommitEntry.rawMessage : CommitEntry → String
  | .dict _ m => m.getD ""
  | .nonDict => ""

/-- Whether `_transform_commits_to_records` treats the entry as a merge commit. -/
def CommitEntry.isMergeCommit : CommitEntry → Bool
  | .dict _ m => (m.getD "").startsWith "Merge branch"
  | .nonDict => false

/-- One row of the aggregated commit DataFrame. -/
structure Record where
  prNumber : Nat
  prTitle : String
  sha : String
  message : String
  deriving DecidableEq, Repr

/-- Embedding of `_transform_commits_to_records`: skips non-dict entries and
commits whose message starts with "Merge branch", sanitizes kept messages. -/
def transform_commits_to_records (sanitizeMsg : String → String)
    (prNumber : Nat) (prTitle : String) : List CommitEntry → List Record
  | [] => []
  | .nonDict :: rest => transform_commits_to_records sanitizeMsg prNumber prTitle rest
  | .dict sha msg :: rest =>
    let m := msg.getD ""
    if m.startsWith "Merge branch" then
      transform_commits_to_records sanitizeMsg prNumber prTitle rest
    else
      ⟨prNumber, prTitle, sha.getD "", sanitizeMsg m⟩ ::
        transform_commits_to_records sanitizeMsg prNumber prTitle rest

/-- Embedding of `fetch_commits_from_pr`: one client call; a typed API error
is re-raised, a failure while processing the response body yields `none`
(the body oracle is `none` when `response.json()`/processing raises).  The
response sanitizer is an external collaborator passed as a parameter. -/
def fetch_commits_from_pr (net : NetOutcome (Option (List CommitEntry)))
    (sanitize : List CommitEntry → List CommitEntry) :
    Except GitHubAPIError (Option (List CommitEntry)) :=
  match github_api_call net with
  | .error e => .error e
  | .ok resp =>
    match resp.body with
    | none => .ok none
    | some cs => .ok (some (sanitize cs))

/-- Outcome of one invocation of the underlying single-PR fetch, as seen by
the retry wrapper: a commit list, a `None` result, a typed API failure, or a
non-typed (unexpected) exception. -/
inductive FetchAttempt where
  | ok (cs : List CommitEntry)
  | noneResult
  | apiError (e : GitHubAPIError)
  | unexpected (msg : String)

/-- View of a single-PR fetch result as a `FetchAttempt`. -/
def attemptOfFetch (r : Except GitHubAPIError (Option (List CommitEntry))) :
    FetchAttempt :=
  match r with
  | .ok (some cs) => .ok cs
  | .ok none => .noneResult
  | .error e => .apiError e

/-- The error re-raised by the retry wrapper on its final attempt. -/
inductive RetryError where
  | api (e : GitHubAPIError)
  | exn (msg : String)
  deriving Repr

/-- Result of `_fetch_pr_commits_with_retry`: the returned value (or the
raised error), the number of invocations of the underlying fetch, and the
trace of backoff `time.sleep` durations. -/
structure RetryResult where
  result : Except RetryError (Option (List CommitEntry))
  calls : Nat
  sleeps : List ℚ

/-- The body of the `for attempt in range(max_retries)` loop of
`_fetch_pr_commits_with_retry`; `remaining` counts the iterations left, so
`attempt = maxRetries - remaining` throughout a run.  A `None` result falls
through to the next iteration without sleeping; a typed failure at
`attempt == max_retries - 1` is re-raised, earlier typed failures sleep
`delay * 2 ** attempt`; unexpected exceptions sleep the constant `delay`. -/
def retryGo (oracle : Nat → FetchAttempt) (delay : ℚ) (maxRetries : Nat) :
    Nat → Nat → List ℚ → RetryResult
  | 0, attempt, sleeps => ⟨.ok none, attempt, sleeps⟩
  | remaining + 1, attempt, sleeps =>
    match oracle attempt with
    | .ok cs => ⟨.ok (some cs), attempt + 1, sleeps⟩
    | .noneResult => retryGo oracle delay maxRetries remaining (attempt + 1) sleeps
    | .apiError e =>
      if attempt == maxRetries - 1 then ⟨.error (.api e), attempt + 1, sleeps⟩
      else retryGo oracle delay maxRetries remaining (attempt + 1)
        (sleeps ++ [delay * 2 ^ attempt])
    | .unexpected m =>
      if attempt == maxRetries - 1 then ⟨.error (.exn m), attempt + 1, sleeps⟩
      else retryGo oracle delay maxRetries remaining (attempt + 1) (sleeps ++ [delay])

/-- Embedding of `_fetch_pr_commits_with_retry`.  The underlying fetch is an
attempt-indexed oracle; each iteration of the loop consults the next index. -/
def fetch_pr_commits_with_retry (oracle : Nat → FetchAttempt) (delay : ℚ)
    (maxRetries : Nat) : RetryResult :=
  retryGo oracle delay maxRetries maxRetries 0 []

/-- Result of `_fetch_single_pr_commits_optimized`: value or raised typed
error, number of network calls issued, and the trace of backoff sleeps (this
function performs none: it makes a single attempt and passes
`use_rate_limit=False`). -/
structure SingleFetchResult where
  result : Except GitHubAPIError (Option (List CommitEntry))
  netCalls : Nat
  sleeps : List ℚ

/-- Embedding of `_fetch_single_pr_commits_optimized`: serve from the commit
cache when present, otherwise issue exactly one client call; a typed error is
re-raised, a processing failure yields `none`. -/
def fetch_single_pr_commits_optimized (cached : Option (List CommitEntry))
    (net : NetOutcome (Option (List CommitEntry)))
    (sanitize : List CommitEntry → List CommitEntry) : SingleFetchResult :=
  match cached with
  | some cs => ⟨.ok (some cs), 0, []⟩
  | none =>
    match github_api_call net with
    | .error e => ⟨.error e, 1, []⟩
    | .ok resp =>
      match resp.body with
      | none => ⟨.ok none, 1, []⟩
      | some cs => ⟨.ok (some (sanitize cs)), 1, []⟩

/-- One row of the deduplicated PR DataFrame handed to the aggregator. -/
structure PRRow where
  number : Nat
  title : String
  deriving DecidableEq, Repr

/-- Outcome of one worker task as observed through `future.result()`:
either the task completed with a value or it raised. -/
inductive TaskResult where
  | completed (cs : Option (List CommitEntry))
  | raised (msg : String)

/-- Result of the concurrent aggregator: the collected records, the PR
numbers skipped with a warning, the PR numbers submitted to the pool, and
the backoff sleeps performed by the scheduled tasks. -/
structure AggResult where
  records : List Record
  warnings : List Nat
  scheduled : List Nat
  sleeps : List ℚ

/-- Processing of one completed future inside `fetch_commits_from_prs_optimized`:
a raised task is skipped with a warning; a truthy (non-`None`, non-empty)
commit list is transformed against the first PR row with that number and
appended; the lookup `prs[prs['number'] == pr_number].iloc[0]` raising is
caught by the same handler. -/
def aggStep (prs : List PRRow) (sanitizeMsg : String → String)
    (task : Nat → TaskResult × List ℚ) (acc : AggResult) (n : Nat) : AggResult :=
  match (task n).1 with
  | .raised _ => { acc with warnings := acc.warnings ++ [n] }
  | .completed none => acc
  | .completed (some cs) =>
    if cs.isEmpty then acc
    else
      match prs.find? (fun p => p.number == n) with
      | some pr =>
        { acc with records :=
            acc.records ++ transform_commits_to_records sanitizeMsg pr.number pr.title cs }
      | none => { acc with warnings := acc.warnings ++ [n] }

/-- Embedding of `fetch_commits_from_prs_optimized`: an empty PR frame
returns immediately; otherwise one task per PR number is submitted to the
pool and the futures are drained in completion order (`completionOrder`, a
permutation of the PR numbers in any real run). -/
def fetch_commits_from_prs_optimized (prs : List PRRow)
    (task : Nat → TaskResult × List ℚ) (sanitizeMsg : String → String)
    (completionOrder : List Nat) : AggResult :=
  if prs.isEmpty then ⟨[], [], [], []⟩
  else
    let prNumbers := prs.map (·.number)
    let base : AggResult := ⟨[], [], prNumbers, (prNumbers.map (fun n => (task n).2)).flatten⟩
    completionOrder.foldl (aggStep prs sanitizeMsg task) base

/-- A PR item of a `/pulls` page, with the fields the fetcher reads. -/
structure RawPR where
  number : Nat
  title : String
  merged_at : Option Int
  headRepoDescription : String
  deriving DecidableEq, Repr

/-- The per-page filter loop of `fetch_prs_merged_between_dates_optimized`:
keeps PRs merged inside `[startDate, endDate]`; a PR merged strictly before
`startDate` triggers early termination (second component `true`), dropping
the rest of the page. -/
def prFilterScan (startDate endDate : Int) : List RawPR → List RawPR × Bool
  | [] => ([], false)
  | pr :: rest =>
    match pr.merged_at with
    | none => prFilterScan startDate endDate rest
    | some d =>
      if startDate ≤ d ∧ d ≤ endDate then
        let r := prFilterScan startDate endDate rest
        (pr :: r.1, r.2)
      else if d < startDate then ([], true)
      else prFilterScan startDate endDate rest

/-- Environment of the pagination loop: the page-indexed network oracle, the
configured page size, and the external response sanitizer. -/
structure PageEnv where
  net : Nat → NetOutcome (List RawPR)
  perPage : Nat
  sanitize : List RawPR → List RawPR

/-- The `while page <= max_pages` loop of
`fetch_prs_merged_between_dates_optimized`.  The second component of the
result is the trace of pages actually requested.  An empty raw page stops;
the repository description is taken from the first item of page 1; a short
(sanitized) page or early termination stops after extending the accumulator.
`fuel` only bounds the recursion; it starts at `maxPages + 1`, which the
strictly increasing page counter never exhausts. -/
def prPageLoop (env : PageEnv) (startDate endDate : Int) (maxPages : Nat) :
    Nat → Nat → List RawPR → String → List Nat →
    Except GitHubAPIError (List RawPR × String) × List Nat
  | 0, _, acc, desc, trace => (.ok (acc, desc), trace)
  | fuel + 1, page, acc, desc, trace =>
    if page > maxPages then (.ok (acc, desc), trace)
    else
      match github_api_call (env.net page) with
      | .error e => (.error e, trace ++ [page])
      | .ok resp =>
        let trace2 := trace ++ [page]
        if resp.body.isEmpty then (.ok (acc, desc), trace2)
        else
          let prsS := env.sanitize resp.body
          let desc2 :=
            if page == 1 then
              match prsS with
              | p :: _ => p.headRepoDescription
              | [] => desc
            else desc
          let fs := prFilterScan startDate endDate prsS
          let acc2 := acc ++ fs.1
          if prsS.length < env.perPage then (.ok (acc2, desc2), trace2)
          else if fs.2 then (.ok (acc2, desc2), trace2)
          else prPageLoop env startDate endDate maxPages fuel (page + 1) acc2 desc2 trace2

/-- Errors of the PR fetcher: the date-range `ValidationError` or a
propagated client failure. -/
inductive FetchPRsError where
  | validation
  | api (e : GitHubAPIError)
  deriving Repr

/-- Embedding of `fetch_prs_merged_between_dates_optimized`: the cache is
consulted first (`cached` is the lookup result for this query's key); on a
miss the date range is validated before any network traffic, then the
pagination loop runs.  The second component is the trace of requested pages. -/
def fetch_prs_merged_between_dates_optimized
    (cached : Option (List RawPR × String)) (env : PageEnv)
    (startDate endDate : Int) (maxPages : Nat) :
    Except FetchPRsError (List RawPR × String) × List Nat :=
  match cached with
  | some r => (.ok r, [])
  | none =>
    if startDate > endDate then (.error .validation, [])
    else
      match prPageLoop env startDate endDate maxPages (maxPages + 1) 1 [] "" [] with
      | (.ok r, tr) => (.ok r, tr)
      | (.error e, tr) => (.error (.api e), tr)

/-- One row of the concatenated multi-branch PR frame in `streamlit_app.py`
(each branch's rows are tagged with their source branch before combining). -/
structure BranchPRRow where
  number : Nat
  title : String
  branch : String
  deriving DecidableEq, Repr

/-- Worker loop of `drop_duplicates(subset=['number'], keep='first')`:
a row whose number was already seen is dropped, otherwise it is kept. -/
def dropDupGo : List Nat → List BranchPRRow → List BranchPRRow
  | _, [] => []
  | seen, r :: rest =>
    if r.number ∈ seen then dropDupGo seen rest
    else r :: dropDupGo (r.number :: seen) rest

/-- Embedding of `prs.drop_duplicates(subset=['number'], keep='first')`. -/
def drop_duplicates_by_number (rows : List BranchPRRow) : List BranchPRRow :=
  dropDupGo [] rows

/-- Group key of the message extractor: (PR number, PR title). -/
abbrev GroupKey := Nat × String

/-- The group key of a commit record. -/
def rowKey (r : Record) : GroupKey := (r.prNumber, r.prTitle)

/-- Strict ascending comparison used by pandas to order group keys:
lexicographic on (number, title). -/
def keyLtB (a b : GroupKey) : Bool :=
  decide (a.1 < b.1) || (a.1 == b.1 && decide (a.2 < b.2))

/-- The non-strict ordering on group keys. -/
def keyLe (a b : GroupKey) : Prop :=
  a.1 < b.1 ∨ (a.1 = b.1 ∧ a.2 ≤ b.2)

/-- Insertion into a key list sorted ascending by `keyLtB`. -/
def insertKeySorted (k : GroupKey) : List GroupKey → List GroupKey
  | [] => [k]
  | x :: xs => if keyLtB k x then k :: x :: xs else x :: insertKeySorted k xs

/-- Sorting of the group keys, as `groupby` (default `sort=True`) does. -/
def sortKeys : List GroupKey → List GroupKey
  | [] => []
  | x :: xs => insertKeySorted x (sortKeys xs)

/-- First-seen deduplication of the key column pairs. -/
def dedupKeysGo (seen : List GroupKey) : List GroupKey → List GroupKey
  | [] => []
  | k :: rest =>
    if k ∈ seen then dedupKeysGo seen rest
    else k :: dedupKeysGo (k :: seen) rest

/-- The distinct group keys of the filtered frame, in first-seen order. -/
def firstSeenKeys (ks : List GroupKey) : List GroupKey := dedupKeysGo [] ks

/-- The extractor's vectorized pre-filter: drop rows whose message starts
with "Merge branch". -/
def filteredRows (rows : List Record) : List Record :=
  rows.filter (fun r => !(r.message.startsWith "Merge branch"))

/-- Embedding of the `groupby(['PR Number', 'PR Title']).agg({'Commit
Message': list})` frame: one entry per distinct key, keys in pandas' sorted
order, messages of each group in input row order. -/
def extractGroups (rows : List Record) : List (GroupKey × List String) :=
  let filtered := filteredRows rows
  (sortKeys (firstSeenKeys (filtered.map rowKey))).map
    (fun k => (k, (filtered.filter (fun r => decide (rowKey r = k))).map (fun r => r.message)))

/-- Rendering of one PR paragraph: header line then one bullet per message. -/
def renderGroup (g : GroupKey × List String) : String :=
  let n := g.1.1
  let t := g.1.2
  String.intercalate "\n" ((s!"PR #{n}: {t}") :: g.2.map (fun m => s!"- {m}"))

/-- Embedding of `extract_messages_from_commits_optimized`: empty input and
all-merge-commit input give the empty string; otherwise the rendered
paragraphs are joined by a blank line. -/
def extract_messages_from_commits_optimized (rows : List Record) : String :=
  if rows.isEmpty then ""
  else if (filteredRows rows).isEmpty then ""
  else String.intercalate "\n\n" ((extractGroups rows).map renderGroup)

/-! Helper lemmas about the retry loop. -/

theorem retryGo_success (oracle : Nat → FetchAttempt) (d : ℚ) (maxR : Nat)
    (cs : List CommitEntry) :
    ∀ (N remaining attempt : Nat) (sleeps : List ℚ),
      N < remaining → attempt + remaining = maxR →
      (∀ i, i < N → ∃ e, oracle (attempt + i) = .apiError e) →
      oracle (attempt + N) = .ok cs →
      retryGo oracle d maxR remaining attempt sleeps =
        ⟨.ok (some cs), attempt + N + 1,
          sleeps ++ (List.range' attempt N).map (fun i => d * 2 ^ i)⟩ := by
  intro N
  induction N with
  | zero =>
    intro remaining attempt sleeps hlt _ _ hsucc
    obtain ⟨r, rfl⟩ : ∃ r, remaining = r + 1 := ⟨remaining - 1, by omega⟩
    simp only [Nat.add_zero] at hsucc
    simp [retryGo, hsucc, List.range']
  | succ N ih =>
    intro remaining attempt sleeps hlt hsum hfail hsucc
    obtain ⟨r, rfl⟩ : ∃ r, remaining = r + 1 := ⟨remaining - 1, by omega⟩
    obtain ⟨e, he⟩ := hfail 0 (Nat.succ_pos N)
    simp only [Nat.add_zero] at he
    have hb : (attempt == maxR - 1) = false := beq_eq_false_iff_ne.mpr (by omega)
    have step := ih r (attempt + 1) (sleeps ++ [d * 2 ^ attempt])
      (by omega) (by omega)
      (fun i hi => by
        obtain ⟨e', he'⟩ := hfail (i + 1) (by omega)
        exact ⟨e', by rw [← he']; congr 1; omega⟩)
      (by rw [show attempt + 1 + N = attempt + (N + 1) from by omega]; exact hsucc)
    simp only [retryGo, he, hb, Bool.false_eq_true, if_false, step]
    refine congrArg₂ _ (by omega) ?_
    rw [List.range'_succ]
    simp [List.append_assoc]

theorem retryGo_allFail (oracle : Nat → FetchAttempt) (d : ℚ) (maxR : Nat)
    (errf : Nat → GitHubAPIError) :
    ∀ (remaining attempt : Nat) (sleeps : List ℚ),
      0 < remaining → attempt + remaining = maxR →
      (∀ i, attempt ≤ i → i < maxR → oracle i = .apiError (errf i)) →
      retryGo oracle d maxR remaining attempt sleeps =
        ⟨.error (.api (errf (maxR - 1))), maxR,
          sleeps ++ (List.range' attempt (remaining - 1)).map (fun i => d * 2 ^ i)⟩ := by
  intro remaining
  induction remaining with
  | zero => omega
  | succ r ih =>
    intro attempt sleeps _ hsum hfail
    have he := hfail attempt (Nat.le_refl attempt) (by omega)
    by_cases hr : r = 0
    · subst hr
      have hb : (attempt == maxR - 1) = true := beq_iff_eq.mpr (by omega)
      simp only [retryGo, he, hb, if_true, List.range', List.map_nil, List.append_nil]
      rw [show attempt + 1 = maxR from by omega, show attempt = maxR - 1 from by omega]
    · have hb : (attempt == maxR - 1) = false := beq_eq_false_iff_ne.mpr (by omega)
      have step := ih (attempt + 1) (sleeps ++ [d * 2 ^ attempt])
        (by omega) (by omega) (fun i hi hlt => hfail i (by omega) hlt)
      simp only [retryGo, he, hb, Bool.false_eq_true, if_false, step]
      refine congrArg₂ _ rfl ?_
      obtain ⟨s, rfl⟩ : ∃ s, r = s + 1 := ⟨r - 1, by omega⟩
      simp only [Nat.add_sub_cancel]
      rw [List.range'_succ]
      simp [List.append_assoc]

theorem retryGo_allNone (oracle : Nat → FetchAttempt) (d : ℚ) (maxR : Nat) :
    ∀ (remaining attempt : Nat) (sleeps : List ℚ),
      attempt + remaining = maxR →
      (∀ i, attempt ≤ i → i < maxR → oracle i = .noneResult) →
      retryGo oracle d maxR remaining attempt sleeps = ⟨.ok none, maxR, sleeps⟩ := by
  intro remaining
  induction remaining with
  | zero =>
    intro attempt sleeps hsum _
    simp [retryGo, show attempt = maxR from by omega]
  | succ r ih =>
    intro attempt sleeps hsum hnone
    have he := hnone attempt (Nat.le_refl attempt) (by omega)
    simp only [retryGo, he]
    exact ih (attempt + 1) sleeps (by omega) (fun i hi hlt => hnone i (by omega) hlt)

/-- C3: for the retrying single-PR commit fetch, N consecutive typed API
failures followed by a success with max_attempts > N return the success
value after exactly N+1 invocations with backoff waits base_delay * 2^i
(i = 0, 1, ...); with every attempt failing and max_attempts <= N, the last
error is raised after exactly max_attempts invocations. -/
theorem c3_retry_policy (oracle : Nat → FetchAttempt) (d : ℚ) (maxR N : Nat)
    (cs : List CommitEntry) (errf : Nat → GitHubAPIError) :
    ((∀ i, i < N → ∃ e, oracle i = .apiError e) → oracle N = .ok cs → N < maxR →
      fetch_pr_commits_with_retry oracle d maxR =
        ⟨.ok (some cs), N + 1, (List.range N).map (fun i => d * 2 ^ i)⟩)
    ∧ ((∀ i, i < maxR → oracle i = .apiError (errf i)) → 1 ≤ maxR →
      fetch_pr_commits_with_retry oracle d maxR =
        ⟨.error (.api (errf (maxR - 1))), maxR,
          (List.range (maxR - 1)).map (fun i => d * 2 ^ i)⟩) := by
  constructor
  · intro hfail hsucc hlt
    have h := retryGo_success oracle d maxR cs N maxR 0 [] hlt (by omega)
      (fun i hi => by simpa using hfail i hi) (by simpa using hsucc)
    rw [fetch_pr_commits_with_retry, h, List.range_eq_range']
    simp
  · intro hfail hpos
    have h := retryGo_allFail oracle d maxR errf maxR 0 [] (by omega) (by omega)
      (fun i _ hi => hfail i hi)
    rw [fetch_pr_commits_with_retry, h, List.range_eq_range']
    simp

/-- Oracle for the C3 witness: typed failures on attempts 0 and 1, success
on attempt 2. -/
def c3Oracle : Nat → FetchAttempt := fun i =>
  if i < 2 then .apiError ⟨"GitHub API request timeout", none⟩
  else .ok [.dict (some "abc") (some "Fix the parser")]

/-- Witness for C3 at a concrete input: two timeouts then success with
max_retries = 3 returns the commits after 3 invocations and two backoff
sleeps of d * 2^0 and d * 2^1. -/
theorem c3_retry_policy_witness :
    c3Oracle 2 = .ok [.dict (some "abc") (some "Fix the parser")] ∧
    fetch_pr_commits_with_retry c3Oracle 1 3 =
      ⟨.ok (some [.dict (some "abc") (some "Fix the parser")]), 3,
        (List.range 2).map (fun i => (1 : ℚ) * 2 ^ i)⟩ :=
  ⟨rfl,
    (c3_retry_policy c3Oracle 1 3 2 [.dict (some "abc") (some "Fix the parser")]
          (fun _ => ⟨"", none⟩)).1
      (fun i hi => ⟨⟨"GitHub API request timeout", none⟩, by
        interval_cases i <;> rfl⟩)
      rfl (by omega)⟩

/-- C10: if on every one of its max_retries attempts the underlying fetch
returns None (as it does when a non-typed error occurs while processing the
response) rather than raising, the retry wrapper returns None to the caller
without raising and performs no backoff sleep. -/
theorem c10_none_results_return_none
    (nets : Nat → NetOutcome (Option (List CommitEntry)))
    (san : List CommitEntry → List CommitEntry) (d : ℚ) (maxR : Nat)
    (h : ∀ i, i < maxR → fetch_commits_from_pr (nets i) san = .ok none) :
    fetch_pr_commits_with_retry
      (fun i => attemptOfFetch (fetch_commits_from_pr (nets i) san)) d maxR =
      ⟨.ok none, maxR, []⟩ := by
  apply retryGo_allNone _ d maxR maxR 0 [] (by omega)
  intro i _ hi
  rw [h i hi]
  rfl

/-- Attempt-indexed network oracle for the C10 witness: every response is a
200 whose body fails to process. -/
def c10Nets : Nat → NetOutcome (Option (List CommitEntry)) := fun _ =>
  .resp 200 (some 50) none

/-- Witness for C10 at a concrete input: three unprocessable responses with
max_retries = 3 yield None with no sleeps. -/
theorem c10_none_results_return_none_witness :
    fetch_commits_from_pr (c10Nets 0) id = .ok none ∧
    fetch_pr_commits_with_retry
      (fun i => attemptOfFetch (fetch_commits_from_pr (c10Nets i) id)) 1 3 =
      ⟨.ok none, 3, []⟩ :=
  ⟨rfl, c10_none_results_return_none c10Nets id 1 3 (fun _ _ => rfl)⟩

/-! Helper lemmas about the concurrent aggregator. -/

theorem aggStep_records_mono (prs : List PRRow) (smsg : String → String)
    (task : Nat → TaskResult × List ℚ) (acc : AggResult) (n : Nat) (r : Record)
    (h : r ∈ acc.records) : r ∈ (aggStep prs smsg task acc n).records := by
  rcases htn : (task n).1 with cs | m
  · rcases cs with _ | cs
    · simpa [aggStep, htn] using h
    · by_cases hemp : cs.isEmpty
      · simp [aggStep, htn, hemp, h]
      · rcases hfind : prs.find? (fun p => p.number == n) with _ | pr
        · simp [aggStep, htn, hemp, hfind, h]
        · simp [aggStep, htn, hemp, hfind, h]
  · simpa [aggStep, htn] using h

theorem aggFold_records_mono (prs : List PRRow) (smsg : String → String)
    (task : Nat → TaskResult × List ℚ) (r : Record) :
    ∀ (order : List Nat) (acc : AggResult), r ∈ acc.records →
      r ∈ (order.foldl (aggStep prs smsg task) acc).records := by
  intro order
  induction order with
  | nil => intro acc h; exact h
  | cons n rest ih =>
    intro acc h
    exact ih _ (aggStep_records_mono prs smsg task acc n r h)

theorem aggStep_warnings_mono (prs : List PRRow) (smsg : String → String)
    (task : Nat → TaskResult × List ℚ) (acc : AggResult) (n m : Nat)
    (h : m ∈ acc.warnings) : m ∈ (aggStep prs smsg task acc n).warnings := by
  rcases htn : (task n).1 with cs | s
  · rcases cs with _ | cs
    · simpa [aggStep, htn] using h
    · by_cases hemp : cs.isEmpty
      · simp [aggStep, htn, hemp, h]
      · rcases hfind : prs.find? (fun p => p.number == n) with _ | pr
        · simp [aggStep, htn, hemp, hfind, h]
        · simp [aggStep, htn, hemp, hfind, h]
  · simp [aggStep, htn, h]

theorem aggFold_warnings_mono (prs : List PRRow) (smsg : String → String)
    (task : Nat → TaskResult × List ℚ) (m : Nat) :
    ∀ (order : List Nat) (acc : AggResult), m ∈ acc.warnings →
      m ∈ (order.foldl (aggStep prs smsg task) acc).warnings := by
  intro order
  induction order with
  | nil => intro acc h; exact h
  | cons n rest ih =>
    intro acc h
    exact ih _ (aggStep_warnings_mono prs smsg task acc n m h)

theorem aggStep_records_src (prs : List PRRow) (smsg : String → String)
    (task : Nat → TaskResult × List ℚ) (acc : AggResult) (n : Nat) (r : Record)
    (h : r ∈ (aggStep prs smsg task acc n).records) :
    r ∈ acc.records ∨
      ∃ pr cs, prs.find? (fun p => p.number == n) = some pr ∧
        (task n).1 = .completed (some cs) ∧ cs.isEmpty = false ∧
        r ∈ transform_commits_to_records smsg pr.number pr.title cs := by
  rcases htn : (task n).1 with cs | s
  · rcases cs with _ | cs
    · left; simpa [aggStep, htn] using h
    · by_cases hemp : cs.isEmpty
      · left; simpa [aggStep, htn, hemp] using h
      · rcases hfind : prs.find? (fun p => p.number == n) with _ | pr
        · left; simpa [aggStep, htn, hemp, hfind] using h
        · rcases (List.mem_append.mp (by simpa [aggStep, htn, hemp, hfind] using h)) with hl | hr
          · exact Or.inl hl
          · exact Or.inr ⟨pr, cs, hfind, rfl, by simp [hemp], hr⟩
  · left; simpa [aggStep, htn] using h

theorem aggFold_records_src (prs : List PRRow) (smsg : String → String)
    (task : Nat → TaskResult × List ℚ) (r : Record) :
    ∀ (order : List Nat) (acc : AggResult),
      r ∈ (order.foldl (aggStep prs smsg task) acc).records →
      r ∈ acc.records ∨
        ∃ n pr cs, n ∈ order ∧ prs.find? (fun p => p.number == n) = some pr ∧
          (task n).1 = .completed (some cs) ∧ cs.isEmpty = false ∧
          r ∈ transform_commits_to_records smsg pr.number pr.title cs := by
  intro order
  induction order with
  | nil => intro acc h; exact Or.inl h
  | cons n rest ih =>
    intro acc h
    rcases ih _ h with hstep | ⟨n', pr, cs, hmem, hfind, htask, hemp, hr⟩
    · rcases aggStep_records_src prs smsg task acc n r hstep with hl | ⟨pr, cs, hfind, htask, hemp, hr⟩
      · exact Or.inl hl
      · exact Or.inr ⟨n, pr, cs, List.mem_cons_self n rest, hfind, htask, hemp, hr⟩
    · exact Or.inr ⟨n', pr, cs, List.mem_cons_of_mem n hmem, hfind, htask, hemp, hr⟩

theorem find_first_of_nodup (prs : List PRRow)
    (hnodup : (prs.map PRRow.number).Nodup) (pr : PRRow) (hmem : pr ∈ prs) :
    prs.find? (fun p => p.number == pr.number) = some pr := by
  induction prs with
  | nil => cases hmem
  | cons p0 rest ih =>
    rcases List.mem_cons.mp hmem with rfl | htail
    · simp [List.find?]
    · have hne : p0.number ≠ pr.number := by
        intro hcontra
        have : pr.number ∈ rest.map PRRow.number := List.mem_map_of_mem _ htail
        rw [List.map_cons, List.nodup_cons] at hnodup
        exact hnodup.1 (hcontra ▸ this)
      have : (p0.number == pr.number) = false := beq_eq_false_iff_ne.mpr hne
      rw [List.find?]
      rw [this]
      exact ih (by rw [List.map_cons, List.nodup_cons] at hnodup; exact hnodup.2) htail

theorem aggFold_success_included (prs : List PRRow) (smsg : String → String)
    (task : Nat → TaskResult × List ℚ) (pr : PRRow) (cs : List CommitEntry)
    (hfind : prs.find? (fun p => p.number == pr.number) = some pr)
    (htask : (task pr.number).1 = .completed (some cs)) (hemp : cs.isEmpty = false)
    (r : Record) (hr : r ∈ transform_commits_to_records smsg pr.number pr.title cs) :
    ∀ (order : List Nat) (acc : AggResult), pr.number ∈ order →
      r ∈ (order.foldl (aggStep prs smsg task) acc).records := by
  intro order
  induction order with
  | nil => intro acc h; cases h
  | cons n rest ih =>
    intro acc hmem
    rcases List.mem_cons.mp hmem with rfl | htail
    · rw [List.foldl_cons]
      apply aggFold_records_mono
      have : r ∈ acc.records ++ transform_commits_to_records smsg pr.number pr.title cs :=
        List.mem_append_right _ hr
      simpa [aggStep, htask, hemp, hfind] using this
    · rw [List.foldl_cons]
      exact ih _ htail

theorem aggFold_warning_included (prs : List PRRow) (smsg : String → String)
    (task : Nat → TaskResult × List ℚ) (m : Nat) (s : String)
    (htask : (task m).1 = .raised s) :
    ∀ (order : List Nat) (acc : AggResult), m ∈ order →
      m ∈ (order.foldl (aggStep prs smsg task) acc).warnings := by
  intro order
  induction order with
  | nil => intro acc h; cases h
  | cons n rest ih =>
    intro acc hmem
    rcases List.mem_cons.mp hmem with rfl | htail
    · rw [List.foldl_cons]
      apply aggFold_warnings_mono
      simp [aggStep, htask]
    · rw [List.foldl_cons]
      exact ih _ htail

theorem transform_mem_fields (smsg : String → String) (n : Nat) (t : String) :
    ∀ (cs : List CommitEntry) (r : Record),
      r ∈ transform_commits_to_records smsg n t cs →
      r.prNumber = n ∧ r.prTitle = t := by
  intro cs
  induction cs with
  | nil => intro r h; cases h
  | cons c rest ih =>
    intro r h
    rcases c with ⟨sha, msg⟩ | _
    · by_cases hm : (msg.getD "").startsWith "Merge branch"
      · exact ih r (by simpa [transform_commits_to_records, hm] using h)
      · rcases List.mem_cons.mp (by simpa [transform_commits_to_records, hm] using h) with rfl | htail
        · exact ⟨rfl, rfl⟩
        · exact ih r htail
    · exact ih r (by simpa [transform_commits_to_records] using h)

/-- C5: for a PR set of which some PRs fail their commit fetch, the
aggregator's records are exactly the transformed commits of the successful
PRs: every record comes from a PR whose task completed with a commit list,
every successful PR's transformed commits are present, and a failed PR is
surfaced as a warning on the returned value rather than as an exception. -/
theorem c5_partial_failure_tolerance (prs : List PRRow)
    (task : Nat → TaskResult × List ℚ) (smsg : String → String)
    (order : List Nat)
    (hnodup : (prs.map PRRow.number).Nodup)
    (hperm : order.Perm (prs.map PRRow.number)) :
    (∀ r ∈ (fetch_commits_from_prs_optimized prs task smsg order).records,
      ∃ pr, pr ∈ prs ∧ r.prNumber = pr.number ∧
        ∃ cs, (task pr.number).1 = .completed (some cs) ∧
          r ∈ transform_commits_to_records smsg pr.number pr.title cs)
    ∧ (∀ pr, pr ∈ prs → ∀ cs, (task pr.number).1 = .completed (some cs) →
        cs.isEmpty = false →
        ∀ r ∈ transform_commits_to_records smsg pr.number pr.title cs,
          r ∈ (fetch_commits_from_prs_optimized prs task smsg order).records)
    ∧ (∀ pr, pr ∈ prs → ∀ s, (task pr.number).1 = .raised s →
        pr.number ∈ (fetch_commits_from_prs_optimized prs task smsg order).warnings) := by
  by_cases hprs : prs.isEmpty
  · have hnil : prs = [] := List.isEmpty_iff.mp hprs
    subst hnil
    refine ⟨?_, ?_, ?_⟩
    · intro r h; simp [fetch_commits_from_prs_optimized] at h
    · intro pr h; cases h
    · intro pr h; cases h
  · have hunfold : fetch_commits_from_prs_optimized prs task smsg order =
        order.foldl (aggStep prs smsg task)
          ⟨[], [], prs.map (·.number), ((prs.map (·.number)).map (fun n => (task n).2)).flatten⟩ := by
      simp [fetch_commits_from_prs_optimized, hprs]
    refine ⟨?_, ?_, ?_⟩
    · intro r h
      rw [hunfold] at h
      rcases aggFold_records_src prs smsg task r order _ h with hbase | ⟨n, pr, cs, _, hfind, htask, _, hr⟩
      · cases hbase
      · have hmem : pr ∈ prs := List.mem_of_find?_eq_some hfind
        have hnum : pr.number = n := by
          have := List.find?_some hfind
          exact beq_iff_eq.mp this
        exact ⟨pr, hmem, (transform_mem_fields smsg pr.number pr.title cs r hr).1,
          cs, by rw [hnum]; exact htask, hr⟩
    · intro pr hmem cs htask hemp r hr
      rw [hunfold]
      exact aggFold_success_included prs smsg task pr cs
        (find_first_of_nodup prs hnodup pr hmem) htask hemp r hr order _
        (hperm.mem_iff.mpr (List.mem_map_of_mem _ hmem))
    · intro pr hmem s htask
      rw [hunfold]
      exact aggFold_warning_included prs smsg task pr.number s htask order _
        (hperm.mem_iff.mpr (List.mem_map_of_mem _ hmem))

/-- Concrete task oracle for the C5 witness: PR 1 succeeds with one commit,
PR 2 raises. -/
def c5Task : Nat → TaskResult × List ℚ := fun n =>
  if n == 1 then (.completed (some [.dict (some "aaa") (some "Add feature")]), [])
  else (.raised "boom", [])

/-- Witness for C5 at a concrete input: two PRs, one failing; the surviving
record is PR 1's commit and PR 2 is turned into a warning. -/
theorem c5_partial_failure_tolerance_witness :
    (⟨1, "T1", "aaa", "Add feature"⟩ : Record) ∈
      (fetch_commits_from_prs_optimized [⟨1, "T1"⟩, ⟨2, "T2"⟩] c5Task id [2, 1]).records ∧
    (2 : Nat) ∈
      (fetch_commits_from_prs_optimized [⟨1, "T1"⟩, ⟨2, "T2"⟩] c5Task id [2, 1]).warnings :=
  ⟨((c5_partial_failure_tolerance [⟨1, "T1"⟩, ⟨2, "T2"⟩] c5Task id [2, 1]
        (by decide) (by decide)).2.1)
      ⟨1, "T1"⟩ (by decide) [.dict (some "aaa") (some "Add feature")] rfl rfl
      ⟨1, "T1", "aaa", "Add feature"⟩ (by decide),
    ((c5_partial_failure_tolerance [⟨1, "T1"⟩, ⟨2, "T2"⟩] c5Task id [2, 1]
        (by decide) (by decide)).2.2)
      ⟨2, "T2"⟩ (by decide) "boom" rfl⟩

/-- C9: applied to an empty PR set, the concurrent aggregator returns the
empty result immediately: no records, no warnings, no scheduled worker
tasks (hence no network calls) and no sleeps. -/
theorem c9_empty_pr_set (task : Nat → TaskResult × List ℚ)
    (smsg : String → String) (order : List Nat) :
    fetch_commits_from_prs_optimized [] task smsg order = ⟨[], [], [], []⟩ := rfl

/-- Attempt-indexed network oracle of the C1 scenario for PR #77: timeouts
on attempts 0 and 1, success on attempt 2. -/
def c1Net : Nat → NetOutcome (Option (List CommitEntry)) := fun attempt =>
  if attempt ≤ 1 then .timeout
  else .resp 200 (some 100) (some [.dict (some "a1b2") (some "Fix timeout handling")])

/-- The task the aggregator actually schedules for PR #77: a single run of
`_fetch_single_pr_commits_optimized` on a commit-cache miss, which performs
exactly one attempt (attempt index 0) and no retry. -/
def c1Task : Nat → TaskResult × List ℚ := fun _ =>
  let sf := fetch_single_pr_commits_optimized none (c1Net 0) id
  (match sf.result with
   | .ok cs => .completed cs
   | .error e => .raised e.message,
   sf.sleeps)

/-- C1 (code-bug evidence): in the claim's scenario — PR #77's commit fetch
times out twice and would succeed on the third attempt, max_retries = 3 —
the concurrent aggregator schedules the non-retrying single-PR fetch, so
only attempt 0 runs: PR #77's commits are absent from the aggregate, the PR
is recorded as a warning, and the backoff sleep is invoked zero times (the
claim expects the commits included and exactly two sleeps). -/
theorem c1_concurrent_fetch_does_not_retry :
    fetch_commits_from_prs_optimized [⟨77, "Fix timeout handling"⟩] c1Task id [77] =
      ⟨[], [77], [77], []⟩ := rfl

/-! Helper lemmas about the client and the pagination loop. -/

theorem github_api_call_of_rate_limit {α : Type} (n : NetOutcome α)
    (h : isRateLimitResponse n = true) :
    github_api_call n = .error rateLimitError := by
  rcases n with ⟨status, remaining, body⟩ | _ | _
  · simp only [isRateLimitResponse] at h
    simp [github_api_call, h]
  · simp [isRateLimitResponse] at h
  · simp [isRateLimitResponse] at h

theorem prPageLoop_rate_limit_stops (env : PageEnv) (s e : Int) (mp p : Nat)
    (hrl : isRateLimitResponse (env.net p) = true) :
    ∀ (fuel page : Nat) (acc : List RawPR) (desc : String) (tr : List Nat),
      (∀ q, q ∈ tr → q < page) →
      (∀ q, q ∈ tr → ∃ r, github_api_call (env.net q) = .ok r) →
      p ∈ (prPageLoop env s e mp fuel page acc desc tr).2 →
      (∀ q, q ∈ (prPageLoop env s e mp fuel page acc desc tr).2 → q ≤ p) ∧
      (prPageLoop env s e mp fuel page acc desc tr).1 = .error rateLimitError := by
  intro fuel
  induction fuel with
  | zero =>
    intro page acc desc tr hlt hok hp
    simp only [prPageLoop] at hp
    obtain ⟨r, hr⟩ := hok p hp
    rw [github_api_call_of_rate_limit _ hrl] at hr
    cases hr
  | succ fuel ih =>
    intro page acc desc tr hlt hok hp
    have hnotin : p ∉ tr := by
      intro hmem
      obtain ⟨r, hr⟩ := hok p hmem
      rw [github_api_call_of_rate_limit _ hrl] at hr
      cases hr
    by_cases hpage : page > mp
    · simp only [prPageLoop] at hp ⊢
      rw [if_pos hpage] at hp ⊢
      exact (hnotin hp).elim
    · rcases hcall : github_api_call (env.net page) with e0 | resp
      · simp only [prPageLoop] at hp ⊢
        rw [if_neg hpage] at hp ⊢
        simp only [hcall] at hp ⊢
        rcases List.mem_append.mp hp with h | h
        · exact (hnotin h).elim
        · have hpp : p = page := by simpa using h
          rw [hpp] at hrl
          rw [github_api_call_of_rate_limit _ hrl] at hcall
          injection hcall with h2
          constructor
          · intro q hq
            rcases List.mem_append.mp hq with h1 | h1
            · have := hlt q h1
              omega
            · have : q = page := by simpa using h1
              omega
          · rw [← h2]
      · simp only [prPageLoop] at hp ⊢
        rw [if_neg hpage] at hp ⊢
        simp only [hcall] at hp ⊢
        have hfalse : p ∈ tr ++ [page] → False := by
          intro hmem
          rcases List.mem_append.mp hmem with h | h
          · exact hnotin h
          · have hpp : p = page := by simpa using h
            rw [hpp] at hrl
            rw [github_api_call_of_rate_limit _ hrl] at hcall
            cases hcall
        by_cases hbody : resp.body.isEmpty
        · rw [if_pos hbody] at hp ⊢
          exact (hfalse hp).elim
        · rw [if_neg hbody] at hp ⊢
          by_cases hlen : (env.sanitize resp.body).length < env.perPage
          · rw [if_pos hlen] at hp ⊢
            exact (hfalse hp).elim
          · rw [if_neg hlen] at hp ⊢
            by_cases hterm : (prFilterScan s e (env.sanitize resp.body)).2
            · rw [if_pos hterm] at hp ⊢
              exact (hfalse hp).elim
            · rw [if_neg hterm] at hp ⊢
              apply ih
              · intro q hq
                rcases List.mem_append.mp hq with h | h
                · have := hlt q h
                  omega
                · have : q = page := by simpa using h
                  omega
              · intro q hq
                rcases List.mem_append.mp hq with h | h
                · exact hok q h
                · have hqq : q = page := by simpa using h
                  exact hqq ▸ ⟨resp, hcall⟩
              · exact hp

/-- C4: the PR fetcher raises ValidationError exactly on an inverted date
range: with start_date <= end_date the result is never ValidationError (for
any cache state and network behaviour), and with start_date > end_date and
no cache hit for the query the fetcher fails with ValidationError having
requested no page at all. -/
theorem c4_date_validation (cached : Option (List RawPR × String)) (env : PageEnv)
    (s e : Int) (mp : Nat) :
    (s ≤ e → (fetch_prs_merged_between_dates_optimized cached env s e mp).1 ≠
      Except.error FetchPRsError.validation)
    ∧ (s > e → cached = none →
      fetch_prs_merged_between_dates_optimized cached env s e mp =
        (Except.error FetchPRsError.validation, [])) := by
  constructor
  · intro hle
    rcases cached with _ | r
    · have hv : ¬ s > e := not_lt.mpr hle
      rcases hloop : prPageLoop env s e mp (mp + 1) 1 [] "" [] with ⟨res, tr⟩
      rcases res with e0 | v
      · simp [fetch_prs_merged_between_dates_optimized, hv, hloop]
      · simp [fetch_prs_merged_between_dates_optimized, hv, hloop]
    · simp [fetch_prs_merged_between_dates_optimized]
  · intro hv hc
    subst hc
    simp [fetch_prs_merged_between_dates_optimized, hv]

/-- A benign concrete page environment for the C4 witness. -/
def c4Env : PageEnv := ⟨fun _ => .resp 200 (some 100) [], 100, id⟩

/-- Witness for C4 at a concrete input: an inverted range (1 > 0) on a cache
miss yields ValidationError with an empty request trace. -/
theorem c4_date_validation_witness :
    (1 : Int) > 0 ∧
    fetch_prs_merged_between_dates_optimized none c4Env 1 0 5 =
      (Except.error FetchPRsError.validation, []) :=
  ⟨by norm_num, (c4_date_validation none c4Env 1 0 5).2 (by norm_num) rfl⟩

/-- C8: the client raises RateLimitExceeded on every 403 response whose
remaining-quota header is 0, and whenever the PR fetcher's request trace
contains such a page, no later page is requested and the fetch fails with
that error. -/
theorem c8_rate_limit_stops_pagination :
    (∀ (status : Nat) (remaining : Option Nat) (body : List RawPR),
      status = 403 → remaining.getD 0 = 0 →
      github_api_call (NetOutcome.resp status remaining body) = .error rateLimitError)
    ∧ (∀ (cached : Option (List RawPR × String)) (env : PageEnv) (s e : Int)
        (mp p : Nat),
        isRateLimitResponse (env.net p) = true →
        p ∈ (fetch_prs_merged_between_dates_optimized cached env s e mp).2 →
        (∀ q, q ∈ (fetch_prs_merged_between_dates_optimized cached env s e mp).2 → q ≤ p) ∧
        (fetch_prs_merged_between_dates_optimized cached env s e mp).1 =
          .error (.api rateLimitError)) := by
  constructor
  · intro status remaining body h1 h2
    apply github_api_call_of_rate_limit
    simp [isRateLimitResponse, h1, h2]
  · intro cached env s e mp p hrl hp
    rcases cached with _ | r
    · by_cases hv : s > e
      · simp [fetch_prs_merged_between_dates_optimized, hv] at hp
      · have hmain := prPageLoop_rate_limit_stops env s e mp p hrl (mp + 1) 1 [] "" []
          (by intro q hq; cases hq) (by intro q hq; cases hq)
        rcases hloop : prPageLoop env s e mp (mp + 1) 1 [] "" [] with ⟨res, tr⟩
        rw [hloop] at hmain
        rcases res with e0 | v
        · have hfetch : fetch_prs_merged_between_dates_optimized none env s e mp =
              (Except.error (FetchPRsError.api e0), tr) := by
            simp [fetch_prs_merged_between_dates_optimized, hv, hloop]
          rw [hfetch] at hp ⊢
          obtain ⟨hle, herr⟩ := hmain hp
          have he0 : e0 = rateLimitError := by
            have h' : Except.error (α := List RawPR × String) e0 =
                Except.error rateLimitError := herr
            injection h'
          subst he0
          exact ⟨hle, rfl⟩
        · have hfetch : fetch_prs_merged_between_dates_optimized none env s e mp =
              (Except.ok v, tr) := by
            simp [fetch_prs_merged_between_dates_optimized, hv, hloop]
          rw [hfetch] at hp
          obtain ⟨_, herr⟩ := hmain hp
          exact absurd herr (by simp)
    · simp [fetch_prs_merged_between_dates_optimized] at hp

/-- Page environment of the C8 witness: every page answers 403 with the
remaining-quota header equal to 0. -/
def c8Env : PageEnv :=
  ⟨fun _ => .resp 403 (some 0) [⟨500, "t", some 10, "d"⟩], 100, id⟩

/-- Witness for C8 at a concrete input: the quota-exhausted 403 on page 1
makes the client raise RateLimitExceeded, the fetch fail with it, and the
request trace stop at page 1. -/
theorem c8_rate_limit_stops_pagination_witness :
    github_api_call (NetOutcome.resp 403 (some 0) ([] : List RawPR)) =
      .error rateLimitError ∧
    (∀ q, q ∈ (fetch_prs_merged_between_dates_optimized none c8Env 0 5 3).2 → q ≤ 1) ∧
    (fetch_prs_merged_between_dates_optimized none c8Env 0 5 3).1 =
      .error (.api rateLimitError) :=
  ⟨c8_rate_limit_stops_pagination.1 403 (some 0) [] rfl rfl,
    c8_rate_limit_stops_pagination.2 none c8Env 0 5 3 1 rfl (by decide)⟩

/-! Helper lemmas about the multi-branch deduplication. -/

theorem dropDupGo_nodup_numbers :
    ∀ (rows : List BranchPRRow) (seen : List Nat),
      ((dropDupGo seen rows).map BranchPRRow.number).Nodup ∧
      (∀ n, n ∈ (dropDupGo seen rows).map BranchPRRow.number → n ∉ seen) := by
  intro rows
  induction rows with
  | nil => intro seen; simp [dropDupGo]
  | cons r rest ih =>
    intro seen
    by_cases hmem : r.number ∈ seen
    · simpa [dropDupGo, hmem] using ih seen
    · constructor
      · simp only [dropDupGo, if_neg hmem, List.map_cons, List.nodup_cons]
        constructor
        · intro hcontra
          exact (ih (r.number :: seen)).2 r.number hcontra (List.mem_cons_self _ _)
        · exact (ih (r.number :: seen)).1
      · intro n hn hseen
        simp only [dropDupGo, if_neg hmem, List.map_cons] at hn
        rcases List.mem_cons.mp hn with rfl | htail
        · exact hmem hseen
        · exact (ih (r.number :: seen)).2 n htail (List.mem_cons_of_mem _ hseen)

theorem dropDupGo_subset :
    ∀ (rows : List BranchPRRow) (seen : List Nat) (r : BranchPRRow),
      r ∈ dropDupGo seen rows → r ∈ rows := by
  intro rows
  induction rows with
  | nil => intro seen r h; simp [dropDupGo] at h
  | cons x rest ih =>
    intro seen r h
    by_cases hmem : x.number ∈ seen
    · exact List.mem_cons_of_mem _ (ih seen r (by simpa [dropDupGo, hmem] using h))
    · rcases List.mem_cons.mp (by simpa [dropDupGo, hmem] using h) with rfl | htail
      · exact List.mem_cons_self _ _
      · exact List.mem_cons_of_mem _ (ih _ r htail)

theorem dropDupGo_find_first :
    ∀ (rows : List BranchPRRow) (seen : List Nat) (n : Nat) (r : BranchPRRow),
      n ∉ seen → rows.find? (fun x => x.number == n) = some r →
      r ∈ dropDupGo seen rows := by
  intro rows
  induction rows with
  | nil => intro seen n r _ hfind; simp [List.find?] at hfind
  | cons x rest ih =>
    intro seen n r hn hfind
    by_cases hx : (x.number == n) = true
    · simp only [List.find?, hx] at hfind
      injection hfind with hr
      subst hr
      have hxn : x.number = n := beq_iff_eq.mp hx
      have : x.number ∉ seen := hxn ▸ hn
      simp [dropDupGo, this]
    · have hx' : (x.number == n) = false := by simpa using hx
      simp only [List.find?, hx'] at hfind
      have hne : n ≠ x.number := fun hcontra => hx (beq_iff_eq.mpr hcontra.symm)
      by_cases hmem : x.number ∈ seen
      · simpa [dropDupGo, hmem] using ih seen n r hn hfind
      · simp only [dropDupGo, if_neg hmem]
        exact List.mem_cons_of_mem _
          (ih (x.number :: seen) n r (by simp [hne, hn]) hfind)

/-- C7: combining per-branch PR sets de-duplicates by PR number keeping the
first occurrence in branch-request order: the surviving numbers are
distinct, every surviving row is one of the input rows, the first input row
bearing a number always survives; concretely, production PRs {101,102}
followed by staging PRs {102,103} combine to {101,102,103} with PR 102
attributed to "production". -/
theorem c7_dedup_first_occurrence :
    (∀ rows : List BranchPRRow,
      ((drop_duplicates_by_number rows).map BranchPRRow.number).Nodup
      ∧ (∀ r, r ∈ drop_duplicates_by_number rows → r ∈ rows)
      ∧ (∀ (n : Nat) (r : BranchPRRow),
          rows.find? (fun x => x.number == n) = some r →
          r ∈ drop_duplicates_by_number rows))
    ∧ drop_duplicates_by_number
        [⟨101, "A", "production"⟩, ⟨102, "B", "production"⟩,
         ⟨102, "B", "staging"⟩, ⟨103, "C", "staging"⟩] =
        [⟨101, "A", "production"⟩, ⟨102, "B", "production"⟩, ⟨103, "C", "staging"⟩] := by
  refine ⟨fun rows => ⟨(dropDupGo_nodup_numbers rows []).1, ?_, ?_⟩, by decide⟩
  · intro r h
    exact dropDupGo_subset rows [] r h
  · intro n r hfind
    exact dropDupGo_find_first rows [] n r (by simp) hfind

/-- Witness for C7 at a concrete input: the first row numbered 102 (from
"production") is the one that survives deduplication. -/
theorem c7_dedup_first_occurrence_witness :
    ([⟨102, "B", "production"⟩, ⟨102, "B2", "staging"⟩] :
        List BranchPRRow).find? (fun x => x.number == 102) =
      some ⟨102, "B", "production"⟩ ∧
    (⟨102, "B", "production"⟩ : BranchPRRow) ∈
      drop_duplicates_by_number [⟨102, "B", "production"⟩, ⟨102, "B2", "staging"⟩] :=
  ⟨by decide,
    ((c7_dedup_first_occurrence.1
        [⟨102, "B", "production"⟩, ⟨102, "B2", "staging"⟩]).2.2) 102
      ⟨102, "B", "production"⟩ (by decide)⟩

/-! Helper lemmas about group keys, sorting and deduplication in the
message extractor. -/

theorem keyLe_trans {a b c : GroupKey} (h1 : keyLe a b) (h2 : keyLe b c) :
    keyLe a c := by
  rcases h1 with h1 | ⟨h1e, h1le⟩ <;> rcases h2 with h2 | ⟨h2e, h2le⟩
  · exact Or.inl (by omega)
  · exact Or.inl (by omega)
  · exact Or.inl (by omega)
  · exact Or.inr ⟨by omega, le_trans h1le h2le⟩

theorem keyLe_of_keyLtB_true {a b : GroupKey} (h : keyLtB a b = true) :
    keyLe a b := by
  simp only [keyLtB, Bool.or_eq_true, Bool.and_eq_true, decide_eq_true_eq,
    beq_iff_eq] at h
  rcases h with h | ⟨he, hlt⟩
  · exact Or.inl h
  · exact Or.inr ⟨he, le_of_lt hlt⟩

theorem keyLe_of_keyLtB_false {a b : GroupKey} (h : keyLtB a b = false) :
    keyLe b a := by
  simp only [keyLtB, Bool.or_eq_false_iff, Bool.and_eq_false_iff,
    decide_eq_false_iff_not, beq_eq_false_iff_ne] at h
  obtain ⟨hnlt, hrest⟩ := h
  by_cases heq : a.1 = b.1
  · rcases hrest with hne | hnlt2
    · exact absurd heq hne
    · exact Or.inr ⟨heq.symm, le_of_not_lt hnlt2⟩
  · exact Or.inl (by omega)

theorem mem_insertKeySorted (k a : GroupKey) :
    ∀ l, a ∈ insertKeySorted k l ↔ a = k ∨ a ∈ l := by
  intro l
  induction l with
  | nil => simp [insertKeySorted]
  | cons x xs ih =>
    by_cases hlt : keyLtB k x
    · simp [insertKeySorted, hlt]
    · simp only [insertKeySorted, if_neg hlt, List.mem_cons, ih]
      tauto

theorem pairwise_insertKeySorted (k : GroupKey) :
    ∀ l, l.Pairwise keyLe → (insertKeySorted k l).Pairwise keyLe := by
  intro l
  induction l with
  | nil => intro _; simp [insertKeySorted]
  | cons x xs ih =>
    intro hp
    rw [List.pairwise_cons] at hp
    obtain ⟨hx, hxs⟩ := hp
    by_cases hlt : keyLtB k x
    · rw [insertKeySorted, if_pos hlt]
      rw [List.pairwise_cons]
      refine ⟨?_, List.Pairwise.cons hx hxs⟩
      intro b hb
      rcases List.mem_cons.mp hb with rfl | hbx
      · exact keyLe_of_keyLtB_true hlt
      · exact keyLe_trans (keyLe_of_keyLtB_true hlt) (hx b hbx)
    · rw [insertKeySorted, if_neg hlt]
      rw [List.pairwise_cons]
      refine ⟨?_, ih hxs⟩
      intro b hb
      rcases (mem_insertKeySorted k b xs).mp hb with rfl | hbx
      · exact keyLe_of_keyLtB_false (by simpa using hlt)
      · exact hx b hbx

theorem nodup_insertKeySorted (k : GroupKey) :
    ∀ l, k ∉ l → l.Nodup → (insertKeySorted k l).Nodup := by
  intro l
  induction l with
  | nil => intro _ _; simp [insertKeySorted]
  | cons x xs ih =>
    intro hk hn
    rw [List.nodup_cons] at hn
    obtain ⟨hx, hxs⟩ := hn
    by_cases hlt : keyLtB k x
    · rw [insertKeySorted, if_pos hlt]
      exact List.Nodup.cons hk (List.Nodup.cons hx hxs)
    · rw [insertKeySorted, if_neg hlt]
      rw [List.nodup_cons]
      constructor
      · intro hcontra
        rcases (mem_insertKeySorted k x xs).mp hcontra with rfl | hxx
        · exact hk (List.mem_cons_self _ _)
        · exact hx hxx
      · exact ih (fun hmem => hk (List.mem_cons_of_mem _ hmem)) hxs

theorem mem_sortKeys (a : GroupKey) : ∀ l, a ∈ sortKeys l ↔ a ∈ l := by
  intro l
  induction l with
  | nil => simp [sortKeys]
  | cons x xs ih =>
    rw [sortKeys, mem_insertKeySorted, ih, List.mem_cons]

theorem pairwise_sortKeys : ∀ l, (sortKeys l).Pairwise keyLe := by
  intro l
  induction l with
  | nil => simp [sortKeys]
  | cons x xs ih => exact pairwise_insertKeySorted x _ ih

theorem nodup_sortKeys : ∀ l, l.Nodup → (sortKeys l).Nodup := by
  intro l
  induction l with
  | nil => intro _; simp [sortKeys]
  | cons x xs ih =>
    intro hn
    rw [List.nodup_cons] at hn
    exact nodup_insertKeySorted x _
      (fun hmem => hn.1 ((mem_sortKeys x xs).mp hmem)) (ih hn.2)

theorem mem_dedupKeysGo (a : GroupKey) :
    ∀ (l : List GroupKey) (seen : List GroupKey),
      a ∈ dedupKeysGo seen l ↔ (a ∈ l ∧ a ∉ seen) := by
  intro l
  induction l with
  | nil => intro seen; simp [dedupKeysGo]
  | cons k rest ih =>
    intro seen
    by_cases hmem : k ∈ seen
    · rw [dedupKeysGo, if_pos hmem, ih]
      constructor
      · rintro ⟨h1, h2⟩
        exact ⟨List.mem_cons_of_mem _ h1, h2⟩
      · rintro ⟨h1, h2⟩
        rcases List.mem_cons.mp h1 with rfl | h1
        · exact absurd hmem h2
        · exact ⟨h1, h2⟩
    · rw [dedupKeysGo, if_neg hmem]
      rw [List.mem_cons, ih]
      constructor
      · rintro (rfl | ⟨h1, h2⟩)
        · exact ⟨List.mem_cons_self _ _, hmem⟩
        · exact ⟨List.mem_cons_of_mem _ h1, fun hc => h2 (List.mem_cons_of_mem _ hc)⟩
      · rintro ⟨h1, h2⟩
        rcases List.mem_cons.mp h1 with rfl | h1
        · exact Or.inl rfl
        · by_cases hak : a = k
          · exact Or.inl hak
          · exact Or.inr ⟨h1, by simp [hak, h2]⟩

theorem nodup_dedupKeysGo :
    ∀ (l : List GroupKey) (seen : List GroupKey), (dedupKeysGo seen l).Nodup := by
  intro l
  induction l with
  | nil => intro seen; simp [dedupKeysGo]
  | cons k rest ih =>
    intro seen
    by_cases hmem : k ∈ seen
    · rw [dedupKeysGo, if_pos hmem]
      exact ih seen
    · rw [dedupKeysGo, if_neg hmem]
      rw [List.nodup_cons]
      refine ⟨?_, ih _⟩
      intro hcontra
      exact ((mem_dedupKeysGo k rest (k :: seen)).mp hcontra).2 (List.mem_cons_self _ _)

theorem extractGroups_keys (rows : List Record) :
    (extractGroups rows).map Prod.fst =
      sortKeys (firstSeenKeys ((filteredRows rows).map rowKey)) := by
  simp only [extractGroups, List.map_map]
  exact List.map_id _

/-- C2 counterexample: pandas `groupby` (default `sort=True`) orders the
paragraphs by ascending (PR number, PR title), not by first-seen order of
the input: with PR 2's commit first in the input, the output starts with
PR 1's paragraph, not PR 2's as the claim requires. -/
theorem c2_first_seen_order_counterexample :
    extract_messages_from_commits_optimized
        [⟨2, "B", "s1", "m1"⟩, ⟨1, "A", "s2", "m2"⟩] =
      "PR #1: A\n- m2\n\nPR #2: B\n- m1" ∧
    extract_messages_from_commits_optimized
        [⟨2, "B", "s1", "m1"⟩, ⟨1, "A", "s2", "m2"⟩] ≠
      "PR #2: B\n- m1\n\nPR #1: A\n- m2" :=
  ⟨by decide, by decide⟩

/-- C2 (amended): the extractor groups commits by (PR number, PR title) and
emits the groups ordered ascending by (PR number, PR title) — the pandas
groupby sort order — not in first-seen input order; group keys are exactly
the distinct keys of the filtered input, each group's bullets are that PR's
commit messages in input order, and the rendered paragraphs are joined by a
blank line. -/
theorem c2_grouping_sorted_order (rows : List Record) :
    ((extractGroups rows).map Prod.fst).Pairwise keyLe
    ∧ ((extractGroups rows).map Prod.fst).Nodup
    ∧ (∀ k : GroupKey, k ∈ (extractGroups rows).map Prod.fst ↔
        k ∈ (filteredRows rows).map rowKey)
    ∧ (∀ g, g ∈ extractGroups rows →
        g.2 = ((filteredRows rows).filter (fun r => decide (rowKey r = g.1))).map
          (fun r => r.message))
    ∧ extract_messages_from_commits_optimized rows =
        (if (filteredRows rows).isEmpty then ""
         else String.intercalate "\n\n" ((extractGroups rows).map renderGroup)) := by
  refine ⟨?_, ?_, ?_, ?_, ?_⟩
  · rw [extractGroups_keys]
    exact pairwise_sortKeys _
  · rw [extractGroups_keys]
    exact nodup_sortKeys _ (nodup_dedupKeysGo _ [])
  · intro k
    rw [extractGroups_keys, mem_sortKeys, firstSeenKeys, mem_dedupKeysGo]
    simp
  · intro g hg
    simp only [extractGroups, List.mem_map] at hg
    obtain ⟨k, _, rfl⟩ := hg
    rfl
  · by_cases hempty : rows.isEmpty
    · have hfe : filteredRows rows = [] := by
        rw [List.isEmpty_iff.mp hempty]
        rfl
      simp [extract_messages_from_commits_optimized, hempty, hfe]
    · simp [extract_messages_from_commits_optimized, hempty]

/-- Witness for C2 (amended) at a concrete input: the group of PR 1 holds
exactly PR 1's message. -/
theorem c2_grouping_sorted_order_witness :
    ((((1, "A") : GroupKey), ["m2"]) ∈
      extractGroups [⟨2, "B", "s1", "m1"⟩, ⟨1, "A", "s2", "m2"⟩]) ∧
    ((((1, "A") : GroupKey), ["m2"]).2 =
      ((filteredRows [⟨2, "B", "s1", "m1"⟩, ⟨1, "A", "s2", "m2"⟩]).filter
        (fun r => decide (rowKey r = (((1, "A") : GroupKey), ["m2"]).1))).map
        (fun r => r.message)) :=
  ⟨by decide,
    (c2_grouping_sorted_order [⟨2, "B", "s1", "m1"⟩, ⟨1, "A", "s2", "m2"⟩]).2.2.2.1
      (((1, "A") : GroupKey), ["m2"]) (by decide)⟩

/-- C6: commits whose message begins with "Merge branch" are dropped by the
transformation (transforming is unchanged by pre-deleting them), and no
message beginning with "Merge branch" ever appears among the bullets of the
extractor's output groups, for every input. -/
theorem c6_merge_commits_never_in_output :
    (∀ (san : String → String) (n : Nat) (t : String) (cs : List CommitEntry),
      transform_commits_to_records san n t cs =
        transform_commits_to_records san n t
          (cs.filter (fun c => ! c.isMergeCommit)))
    ∧ (∀ (rows : List Record) (g : GroupKey × List String),
        g ∈ extractGroups rows → ∀ m ∈ g.2,
        m.startsWith "Merge branch" = false) := by
  constructor
  · intro san n t cs
    induction cs with
    | nil => rfl
    | cons c rest ih =>
      rcases c with ⟨sha, msg⟩ | _
      · by_cases hm : (msg.getD "").startsWith "Merge branch"
        · have hpc : (!(CommitEntry.dict sha msg).isMergeCommit) = false := by
            simp [CommitEntry.isMergeCommit, hm]
          rw [List.filter_cons, hpc, if_neg Bool.false_ne_true]
          simp only [transform_commits_to_records]
          rw [if_pos hm]
          exact ih
        · have hpc : (!(CommitEntry.dict sha msg).isMergeCommit) = true := by
            simp [CommitEntry.isMergeCommit]
            exact Bool.of_not_eq_true hm
          rw [List.filter_cons, hpc, if_pos rfl]
          simp only [transform_commits_to_records]
          rw [if_neg hm, if_neg hm, ih]
      · have hpc : (!(CommitEntry.nonDict).isMergeCommit) = true := rfl
        rw [List.filter_cons, hpc, if_pos rfl]
        simp only [transform_commits_to_records]
        exact ih
  · intro rows g hg m hm
    simp only [extractGroups, List.mem_map] at hg
    obtain ⟨k, _, rfl⟩ := hg
    simp only at hm
    rw [List.mem_map] at hm
    obtain ⟨r, hr, rfl⟩ := hm
    rw [filteredRows] at hr
    have hr' := List.mem_of_mem_filter hr
    have hpred := List.of_mem_filter hr'
    simpa using hpred

/-- Witness for C6 at a concrete input: the surviving message of the only
group does not carry the merge prefix. -/
theorem c6_merge_commits_never_in_output_witness :
    ((((1, "A") : GroupKey), ["m1"]) ∈
      extractGroups [⟨1, "A", "s1", "m1"⟩]) ∧
    ("m1" ∈ (((1, "A") : GroupKey), ["m1"]).2) ∧
    "m1".startsWith "Merge branch" = false :=
  ⟨by decide, by decide,
    c6_merge_commits_never_in_output.2 [⟨1, "A", "s1", "m1"⟩]
      (((1, "A") : GroupKey), ["m1"]) (by decide) "m1" (by decide)⟩
